import Mathlib

/-! Verification of the grokicad core: a shallow embedding of the repository
mirror path derivation and commit/file scanning services
(`backend/src/services/git.rs`), the distillation pipeline
(`backend/src/services/distill.rs` and `backend/src/controllers/distill.rs`),
and the result cache (`database/src/lib.rs`), together with theorems settling
the specified properties. Rust strings are modelled as `List Char`; the
Postgres store is modelled as a pair of keyed partial maps. -/

namespace Grokicad

/-- Rust `String` / `&str` values, modelled as lists of characters. -/
abbrev Str := List Char

/-! ### Result cache (`database/src/lib.rs`) -/

/-- Structured (JSON) document values. The cache treats the distilled document
as a single structured value that is stored and returned as-is, so it is
modelled as a wrapped serialized form compared by equality. -/
structure JsonDoc where
  raw : String
deriving DecidableEq

/-- Row of the `schematics` table (struct `Schematic` in `database/src/lib.rs`),
minus the surrogate `id` column: rows are addressed by their unique
`(repo_url, commit_hash)` key, which the `ON CONFLICT` clauses target.
Timestamps are modelled as integers. -/
structure SchRow where
  commit_date : Option Int
  git_message : Option String
  schematic_image : Option (List Nat)
  change_summary : Option String
  project_overview : Option String
  blurb : Option String
  description : Option String
  distilled_json : Option JsonDoc
  created_at : Int
deriving DecidableEq

/-- Row of the `parts` table (minus its key columns): an optional blurb and a
properties document. -/
structure PartRow where
  blurb : Option String
  properties : JsonDoc
deriving DecidableEq

/-- Cache key: `(repository URL string, commit hash string)`. -/
abbrev CacheKey := String × String

/-- The persistent store: the `schematics` table keyed by
`(repo_url, commit_hash)` and the `parts` table keyed by the owning schematic
row's key plus `part_uuid` (uuids modelled as `Nat`). Since `(repo_url,
commit_hash)` is unique and the surrogate row id is stable under upserts,
keying parts by the row key is equivalent to keying them by `schematic_id`. -/
structure Db where
  sch : CacheKey → Option SchRow
  parts : CacheKey → Nat → Option PartRow

/-- One step of the parts upsert loop in `store_schematic`: `INSERT ... ON
CONFLICT (schematic_id, part_uuid) DO UPDATE SET blurb = EXCLUDED.blurb,
properties = EXCLUDED.properties` — both value columns are overwritten. -/
def upsertPart (key : CacheKey) (d : Db) (pr : Nat × Option String × JsonDoc) : Db :=
  ⟨d.sch, fun k u => if k = key ∧ u = pr.1 then some ⟨pr.2.1, pr.2.2⟩ else d.parts k u⟩

/-- Embedding of `store_schematic` (`database/src/lib.rs:68-133`). The SQL
inserts a row carrying the seven supplied metadata columns (`distilled_json`
is not in the column list, so it is NULL on insert; `created_at` takes its
DEFAULT, modelled by the transaction time `now`); on conflict it overwrites
exactly those seven columns with the EXCLUDED values, preserving
`distilled_json` and `created_at`. Then every supplied part row is upserted. -/
def store_schematic (db : Db) (repo_url commit_hash : String)
    (commit_date : Option Int) (git_message : Option String)
    (schematic_image : Option (List Nat)) (change_summary : Option String)
    (project_overview : Option String) (blurb : Option String)
    (description : Option String) (parts : List (Nat × Option String × JsonDoc))
    (now : Int) : Db :=
  let key : CacheKey := (repo_url, commit_hash)
  let row : SchRow :=
    match db.sch key with
    | none =>
        ⟨commit_date, git_message, schematic_image, change_summary,
         project_overview, blurb, description, none, now⟩
    | some old =>
        ⟨commit_date, git_message, schematic_image, change_summary,
         project_overview, blurb, description, old.distilled_json, old.created_at⟩
  let db1 : Db := ⟨fun k => if k = key then some row else db.sch k, db.parts⟩
  parts.foldl (upsertPart key) db1

/-- Embedding of `store_distilled_json` (`database/src/lib.rs:181-202`): insert
a row supplying only `distilled_json` (all other non-key columns NULL,
`created_at` defaulted); on conflict overwrite only `distilled_json`. -/
def store_distilled_json (db : Db) (repo_url commit_hash : String)
    (distilled_json : JsonDoc) (now : Int) : Db :=
  let key : CacheKey := (repo_url, commit_hash)
  let row : SchRow :=
    match db.sch key with
    | none => ⟨none, none, none, none, none, none, none, some distilled_json, now⟩
    | some old =>
        ⟨old.commit_date, old.git_message, old.schematic_image, old.change_summary,
         old.project_overview, old.blurb, old.description, some distilled_json,
         old.created_at⟩
  ⟨fun k => if k = key then some row else db.sch k, db.parts⟩

/-- Embedding of `retrieve_distilled_json` (`database/src/lib.rs:205-222`):
no row gives the absent case; an existing row gives its `distilled_json`
column, which is itself optional (SQL NULL decodes to the absent case). -/
def retrieve_distilled_json (db : Db) (repo_url commit_hash : String) : Option JsonDoc :=
  match db.sch (repo_url, commit_hash) with
  | none => none
  | some row => row.distilled_json

/-- Result shape of `retrieve_schematic`: the full row plus the map of its
part rows. -/
structure FullSchematic where
  repo_url : String
  commit_hash : String
  commit_date : Option Int
  git_message : Option String
  schematic_image : Option (List Nat)
  change_summary : Option String
  project_overview : Option String
  blurb : Option String
  description : Option String
  distilled_json : Option JsonDoc
  created_at : Int
  parts : Nat → Option PartRow

/-- Embedding of `retrieve_schematic` (`database/src/lib.rs:135-178`). -/
def retrieve_schematic (db : Db) (repo_url commit_hash : String) : Option FullSchematic :=
  match db.sch (repo_url, commit_hash) with
  | none => none
  | some r =>
      some ⟨repo_url, commit_hash, r.commit_date, r.git_message, r.schematic_image,
            r.change_summary, r.project_overview, r.blurb, r.description,
            r.distilled_json, r.created_at, fun u => db.parts (repo_url, commit_hash) u⟩

/-- The parts-upsert loop only touches the `parts` table, never the
`schematics` table. -/
theorem foldl_upsertPart_sch (ps : List (Nat × Option String × JsonDoc))
    (key : CacheKey) : ∀ d : Db, (ps.foldl (upsertPart key) d).sch = d.sch := by
  induction ps with
  | nil => intro d; rfl
  | cons p ps ih => intro d; rw [List.foldl_cons, ih]; rfl

/-- Claim C2: cache put is a field-preserving upsert: for every key and for the
two producers (`store_schematic` writing the metadata fields, and
`store_distilled_json` writing the distilled document), in either order, the
second call overwrites only the fields it supplies and leaves every field set
by the first call intact, so a subsequent get returns the union of the fields
set by both calls. -/
theorem cache_put_is_field_preserving_upsert
    (db : Db) (u h : String) (cd : Option Int) (gm : Option String)
    (img : Option (List Nat)) (cs po bl de : Option String)
    (ps : List (Nat × Option String × JsonDoc)) (doc : JsonDoc) (now1 now2 : Int) :
    (∃ r : FullSchematic,
        retrieve_schematic
          (store_distilled_json (store_schematic db u h cd gm img cs po bl de ps now1)
            u h doc now2) u h = some r ∧
        r.commit_date = cd ∧ r.git_message = gm ∧ r.schematic_image = img ∧
        r.change_summary = cs ∧ r.project_overview = po ∧ r.blurb = bl ∧
        r.description = de ∧ r.distilled_json = some doc) ∧
    (∃ r : FullSchematic,
        retrieve_schematic
          (store_schematic (store_distilled_json db u h doc now1)
            u h cd gm img cs po bl de ps now2) u h = some r ∧
        r.commit_date = cd ∧ r.git_message = gm ∧ r.schematic_image = img ∧
        r.change_summary = cs ∧ r.project_overview = po ∧ r.blurb = bl ∧
        r.description = de ∧ r.distilled_json = some doc) := by
  constructor
  · cases hk : db.sch (u, h) <;>
      simp [store_schematic, store_distilled_json, retrieve_schematic,
        foldl_upsertPart_sch, hk]
  · cases hk : db.sch (u, h) <;>
      simp [store_schematic, store_distilled_json, retrieve_schematic,
        foldl_upsertPart_sch, hk]

/-- Claim C8: round-trip law: storing a document with `store_distilled_json`
and then reading the same key with `retrieve_distilled_json` returns exactly
that document. -/
theorem distilled_json_round_trip (db : Db) (u h : String) (doc : JsonDoc) (now : Int) :
    retrieve_distilled_json (store_distilled_json db u h doc now) u h = some doc := by
  cases hk : db.sch (u, h) <;>
    simp [store_distilled_json, retrieve_distilled_json, hk]

/-- Claim C10: `retrieve_distilled_json` reports the absent case both when no
row exists and when a row exists whose `distilled_json` column is NULL;
`store_schematic` (the hook's metadata-only producer) never writes
`distilled_json`, so it never changes what `retrieve_distilled_json` returns
for the key — metadata-only rows behave as cache misses. -/
theorem metadata_only_rows_read_as_cache_miss :
    (∀ (db : Db) (u h : String) (cd : Option Int) (gm : Option String)
        (img : Option (List Nat)) (cs po bl de : Option String)
        (ps : List (Nat × Option String × JsonDoc)) (now : Int),
        retrieve_distilled_json (store_schematic db u h cd gm img cs po bl de ps now) u h
          = retrieve_distilled_json db u h) ∧
    (∀ (db : Db) (u h : String) (r : SchRow),
        db.sch (u, h) = some r → r.distilled_json = none →
        retrieve_distilled_json db u h = none) := by
  constructor
  · intro db u h cd gm img cs po bl de ps now
    cases hk : db.sch (u, h) <;>
      simp [store_schematic, retrieve_distilled_json, foldl_upsertPart_sch, hk]
  · intro db u h r hr hnone
    simp [retrieve_distilled_json, hr, hnone]

/-- Empty store, used to instantiate the quantified theorems. -/
def emptyDb : Db := ⟨fun _ => none, fun _ _ => none⟩

/-- Example repository URL used for concrete instantiations. -/
def exUrl : String := "https://github.com/acme/board.git"

/-- Example commit hash used for concrete instantiations. -/
def exHash : String := "abc123"

/-- A metadata-only row: `distilled_json` is NULL. -/
def exMetaRow : SchRow := ⟨some 7, some "msg", none, none, none, some "b", some "d", none, 0⟩

/-- Store holding only the metadata-only row `exMetaRow` under every key. -/
def exMetaDb : Db := ⟨fun _ => some exMetaRow, fun _ _ => none⟩

/-- Witness for claim C10 at concrete inputs: a fresh `store_schematic` row and
a pre-existing NULL-document row both read back as a cache miss. -/
theorem metadata_only_rows_read_as_cache_miss_witness :
    retrieve_distilled_json
        (store_schematic emptyDb exUrl exHash none none none none none none none [] 0)
        exUrl exHash
      = retrieve_distilled_json emptyDb exUrl exHash ∧
    retrieve_distilled_json exMetaDb exUrl exHash = none :=
  ⟨metadata_only_rows_read_as_cache_miss.1 emptyDb exUrl exHash
      none none none none none none none [] 0,
    metadata_only_rows_read_as_cache_miss.2 exMetaDb exUrl exHash exMetaRow rfl rfl⟩

/-! ### Mirror path derivation (`backend/src/services/git.rs:10-12`) -/

/-- The slug sanitization inside `get_cache_path`: Rust
`repo_slug.replace('/', "-")` replaces every `'/'` character by `'-'`. -/
def sanitizeSlug (slug : Str) : Str := slug.map fun c => if c = '/' then '-' else c

/-- Embedding of `get_cache_path`: the local mirror directory is
`temp_dir().join(format!("kicad-cache-{}", repo_slug.replace('/', "-")))`.
The process-wide temp root is a parameter (fixed for one process). -/
def get_cache_path (tmpDir : Str) (repo_slug : Str) : Str :=
  tmpDir ++ '/' :: (("kicad-cache-").data ++ sanitizeSlug repo_slug)

/-- Example temp root. -/
def exTmp : Str := ("/tmp").data

/-- Claim C3 counterexample: the mirror-path derivation is not injective: the
distinct repository identities `"a/b"` and `"a-b"` derive the same mirror
directory, so two distinct identities can share a mirror. -/
theorem get_cache_path_collision :
    get_cache_path exTmp (("a/b").data) = get_cache_path exTmp (("a-b").data) ∧
    (("a/b").data : Str) ≠ ("a-b").data := by
  decide

/-- The sanitization map is injective on strings that contain no `'-'`. -/
theorem sanitizeSlug_inj : ∀ l₁ l₂ : Str, '-' ∉ l₁ → '-' ∉ l₂ →
    sanitizeSlug l₁ = sanitizeSlug l₂ → l₁ = l₂ := by
  intro l₁
  induction l₁ with
  | nil =>
    intro l₂ _ _ h
    cases l₂ with
    | nil => rfl
    | cons b t => simp [sanitizeSlug] at h
  | cons a t ih =>
    intro l₂ h₁ h₂ h
    cases l₂ with
    | nil => simp [sanitizeSlug] at h
    | cons b t₂ =>
      simp only [sanitizeSlug, List.map_cons, List.cons.injEq] at h
      obtain ⟨hab, ht⟩ := h
      have ha : a ≠ '-' := fun e => h₁ (by simp [e])
      have hb : b ≠ '-' := fun e => h₂ (by simp [e])
      have hab' : a = b := by
        by_cases ea : a = '/'
        · by_cases eb : b = '/'
          · rw [ea, eb]
          · exfalso
            rw [ea] at hab
            simp only [if_pos rfl, eb, if_neg eb] at hab
            exact hb hab.symm
        · by_cases eb : b = '/'
          · exfalso
            rw [eb] at hab
            simp only [ea, if_neg ea, if_pos rfl] at hab
            exact ha hab
          · simpa [ea, eb] using hab
      subst hab'
      have ht' := ih t₂ (fun hm => h₁ (List.mem_cons_of_mem _ hm))
        (fun hm => h₂ (List.mem_cons_of_mem _ hm)) ht
      rw [ht']

/-- Claim C3 (amended): the mirror-path derivation is deterministic in the
identity and injective on identities containing no `'-'` character: two
distinct such identities always get distinct mirror directories. (Identities
containing `'-'` can collide with identities containing `'/'`, as the
counterexample shows.) -/
theorem get_cache_path_inj_of_no_dash (tmp s₁ s₂ : Str)
    (h₁ : '-' ∉ s₁) (h₂ : '-' ∉ s₂) (hne : s₁ ≠ s₂) :
    get_cache_path tmp s₁ ≠ get_cache_path tmp s₂ := by
  intro he
  apply hne
  unfold get_cache_path at he
  have h3 := List.append_cancel_left he
  injection h3 with _ h4
  exact sanitizeSlug_inj s₁ s₂ h₁ h₂ (List.append_cancel_left h4)

/-- Witness for the amended claim C3 at concrete inputs. -/
theorem get_cache_path_inj_of_no_dash_witness :
    get_cache_path exTmp (("a/b").data) ≠ get_cache_path exTmp (("ab").data) :=
  get_cache_path_inj_of_no_dash exTmp (("a/b").data) (("ab").data)
    (by decide) (by decide) (by decide)

/-! ### Git trees and the snapshot extractor (`backend/src/services/git.rs`) -/

/-- A git tree entry as seen by `tree.walk`: either a blob (file, with raw byte
content) or a subtree (directory, with its entries). Entry names never contain
a path separator in git, but no theorem below relies on that. -/
inductive TreeNode where
  | blob (name : Str) (bytes : List Nat)
  | sub (name : Str) (children : List TreeNode)

/-- The file suffix identifying schematic files. -/
def kicadSfx : Str := (".kicad_sch").data

/-- Rust `path.ends_with(".kicad_sch")`: a (decidable) list-suffix test. -/
def endsKicad (p : Str) : Bool := decide (kicadSfx <:+ p)

/-- Path building used by the walk callbacks in `get_schematic_files` and
`get_changed_schematic_files`: `if dir.is_empty() { name } else
{ format!("{}{}", dir, name) }`. -/
def mkPath (dir name : Str) : Str := if dir.isEmpty then name else dir ++ name

mutual

/-- Preorder visit sequence of `tree.walk(TreeWalkMode::PreOrder, cb)` for one
entry under prefix `dir`: the callback sees every entry paired with the
directory prefix, visiting a subtree entry itself before its children; git2
passes the root prefix as the empty string and deeper prefixes with a trailing
`'/'`. -/
def preVisitsNode (dir : Str) : TreeNode → List (Str × TreeNode)
  | .blob n b => [(dir, .blob n b)]
  | .sub n cs => (dir, .sub n cs) :: preVisitsList (dir ++ n ++ ['/']) cs

def preVisitsList (dir : Str) : List TreeNode → List (Str × TreeNode)
  | [] => []
  | t :: ts => preVisitsNode dir t ++ preVisitsList dir ts

end

/-- Path join in the specification's terms: directory segments joined with
`'/'`, a single segment standing alone (a file directly at the repository root
keeps its unqualified filename). -/
def joinPath : List Str → Str
  | [] => []
  | [s] => s
  | s :: rest => s ++ '/' :: joinPath rest

mutual

/-- Specification-side collector: every blob of a tree, with its full
`'/'`-joined root-relative path and its raw bytes, in preorder. -/
def specBlobsNode (segs : List Str) : TreeNode → List (Str × List Nat)
  | .blob n bytes => [(joinPath (segs ++ [n]), bytes)]
  | .sub n cs => specBlobsList (segs ++ [n]) cs

def specBlobsList (segs : List Str) : List TreeNode → List (Str × List Nat)
  | [] => []
  | t :: ts => specBlobsNode segs t ++ specBlobsList segs ts

end

/-- The walk's directory prefix corresponding to a list of directory segments:
each segment followed by `'/'`. -/
def dirStr : List Str → Str
  | [] => []
  | s :: ss => s ++ '/' :: dirStr ss

theorem joinPath_cons_of_ne_nil (s : Str) (l : List Str) (h : l ≠ []) :
    joinPath (s :: l) = s ++ '/' :: joinPath l := by
  cases l with
  | nil => exact absurd rfl h
  | cons a t => rfl

theorem joinPath_append_single (segs : List Str) (n : Str) :
    joinPath (segs ++ [n]) = dirStr segs ++ n := by
  induction segs with
  | nil => rfl
  | cons s ss ih =>
    rw [List.cons_append, joinPath_cons_of_ne_nil s (ss ++ [n]) (by simp), ih]
    simp [dirStr]

theorem dirStr_append_single (segs : List Str) (n : Str) :
    dirStr (segs ++ [n]) = dirStr segs ++ n ++ ['/'] := by
  induction segs with
  | nil => simp [dirStr]
  | cons s ss ih => simp [dirStr, ih]

theorem mkPath_dirStr (segs : List Str) (n : Str) :
    mkPath (dirStr segs) n = joinPath (segs ++ [n]) := by
  cases segs with
  | nil => simp [mkPath, dirStr, joinPath, List.isEmpty]
  | cons s ss =>
    rw [joinPath_append_single]
    have hne : dirStr (s :: ss) ≠ [] := by simp [dirStr]
    simp [mkPath, List.isEmpty_iff, hne]

/-- Projection from a walk visit to a blob record `(full path, bytes)`. -/
def visitBlob (v : Str × TreeNode) : Option (Str × List Nat) :=
  match v.2 with
  | .blob n b => some (mkPath v.1 n, b)
  | .sub _ _ => none

mutual

/-- Bridge between the walk and the specification-side collector: projecting the
blob visits of a walk started at the prefix for `segs` yields exactly the
spec-side blob records under `segs`. -/
theorem visitBlob_preVisitsNode (segs : List Str) (t : TreeNode) :
    (preVisitsNode (dirStr segs) t).filterMap visitBlob = specBlobsNode segs t := by
  cases t with
  | blob n b =>
    simp [preVisitsNode, specBlobsNode, visitBlob, mkPath_dirStr]
  | sub n cs =>
    have h := visitBlob_preVisitsList (segs ++ [n]) cs
    rw [dirStr_append_single] at h
    simp only [preVisitsNode, specBlobsNode, List.filterMap_cons]
    rw [show dirStr segs ++ n ++ ['/'] = dirStr segs ++ (n ++ ['/']) by simp] at h
    simpa [visitBlob] using h

theorem visitBlob_preVisitsList (segs : List Str) (ts : List TreeNode) :
    (preVisitsList (dirStr segs) ts).filterMap visitBlob = specBlobsList segs ts := by
  cases ts with
  | nil => rfl
  | cons t ts =>
    simp only [preVisitsList, specBlobsList, List.filterMap_append]
    rw [visitBlob_preVisitsNode segs t, visitBlob_preVisitsList segs ts]

end

/-- A walk prefix is either empty (the repository root) or ends in `'/'`. -/
def DirLike (d : Str) : Prop := d = [] ∨ d.getLast? = some '/'

theorem dirLike_append_slash (d : Str) : DirLike (d ++ ['/']) :=
  Or.inr (List.getLast?_concat d)

mutual

/-- Every prefix handed to the callback during a walk started at a `DirLike`
prefix is itself `DirLike`. -/
theorem dirLike_preVisitsNode (dir : Str) (t : TreeNode) (hd : DirLike dir) :
    ∀ v ∈ preVisitsNode dir t, DirLike v.1 := by
  cases t with
  | blob n b =>
    intro v hv
    simp only [preVisitsNode, List.mem_singleton] at hv
    rw [hv]
    exact hd
  | sub n cs =>
    intro v hv
    simp only [preVisitsNode, List.mem_cons] at hv
    rcases hv with hv | hv
    · rw [hv]; exact hd
    · have : DirLike (dir ++ n ++ ['/']) := dirLike_append_slash (dir ++ n)
      exact dirLike_preVisitsList (dir ++ n ++ ['/']) cs this v hv

theorem dirLike_preVisitsList (dir : Str) (ts : List TreeNode) (hd : DirLike dir) :
    ∀ v ∈ preVisitsList dir ts, DirLike v.1 := by
  cases ts with
  | nil => intro v hv; simp [preVisitsList] at hv
  | cons t ts =>
    intro v hv
    simp only [preVisitsList, List.mem_append] at hv
    rcases hv with hv | hv
    · exact dirLike_preVisitsNode dir t hd v hv
    · exact dirLike_preVisitsList dir ts hd v hv

end

/-- A suffix containing no `'/'` lies entirely within the final path component:
appending a `DirLike` directory prefix on the left does not affect whether the
suffix matches. -/
theorem suffix_mkPath_iff (s d n : Str) (hs : '/' ∉ s) (hd : DirLike d) :
    s <:+ mkPath d n ↔ s <:+ n := by
  cases hd with
  | inl h =>
    subst h
    simp [mkPath, List.isEmpty]
  | inr h =>
    have hdne : d ≠ [] := by
      intro e
      rw [e] at h
      simp at h
    have hne : ¬(d.isEmpty = true) := by simpa [List.isEmpty_iff] using hdne
    simp only [mkPath, if_neg hne]
    constructor
    · rintro ⟨u, hu⟩
      rcases List.append_eq_append_iff.mp hu with ⟨w, hw1, hw2⟩ | ⟨w, _, hw2⟩
      · cases w with
        | nil =>
          rw [List.nil_append] at hw2
          exact hw2 ▸ List.suffix_refl n
        | cons c cs =>
          exfalso
          apply hs
          have hsome : ((c :: cs : Str).getLast?).isSome := by simp
          obtain ⟨x, hx⟩ := Option.isSome_iff_exists.mp hsome
          have hxd : d.getLast? = some x := by
            rw [hw1, List.getLast?_append, hx]
            rfl
          have hx' : x = '/' := by
            rw [h] at hxd
            exact (Option.some_inj.mp hxd).symm
          subst hx'
          rw [hw2]
          exact List.mem_append_left n (List.mem_of_mem_getLast? hx)
      · exact ⟨w, hw2.symm⟩
    · intro hsn
      exact hsn.trans ⟨d, rfl⟩

/-- The Unicode replacement character U+FFFD. -/
def replChar : Char := Char.ofNat 0xFFFD

/-- UTF-8 continuation byte test (`0x80..=0xBF`). -/
def isCont (b : Nat) : Bool := 0x80 ≤ b && b ≤ 0xBF

/-- UTF-8 decoding with lossy substitution, modelling Rust
`String::from_utf8_lossy`: each maximal invalid subsequence is replaced by one
U+FFFD (the valid prefix of a partly-valid sequence is consumed with it), and
decoding never fails. Second-byte ranges follow the UTF-8 validity table
(`0xE0 → 0xA0..=0xBF`, `0xED → 0x80..=0x9F`, `0xF0 → 0x90..=0xBF`,
`0xF4 → 0x80..=0x8F`). -/
def utf8Lossy : List Nat → List Char
  | [] => []
  | b :: rest =>
    if b < 0x80 then Char.ofNat b :: utf8Lossy rest
    else if b < 0xC2 then replChar :: utf8Lossy rest
    else if b ≤ 0xDF then
      match rest with
      | [] => [replChar]
      | c1 :: rest1 =>
        if isCont c1 then
          Char.ofNat ((b - 0xC0) * 0x40 + (c1 - 0x80)) :: utf8Lossy rest1
        else replChar :: utf8Lossy (c1 :: rest1)
    else if b ≤ 0xEF then
      match rest with
      | [] => [replChar]
      | c1 :: rest1 =>
        if (if b = 0xE0 then decide (0xA0 ≤ c1) && decide (c1 ≤ 0xBF)
            else if b = 0xED then decide (0x80 ≤ c1) && decide (c1 ≤ 0x9F)
            else isCont c1) then
          match rest1 with
          | [] => [replChar]
          | c2 :: rest2 =>
            if isCont c2 then
              Char.ofNat ((b - 0xE0) * 0x1000 + (c1 - 0x80) * 0x40 + (c2 - 0x80)) ::
                utf8Lossy rest2
            else replChar :: utf8Lossy (c2 :: rest2)
        else replChar :: utf8Lossy (c1 :: rest1)
    else if b ≤ 0xF4 then
      match rest with
      | [] => [replChar]
      | c1 :: rest1 =>
        if (if b = 0xF0 then decide (0x90 ≤ c1) && decide (c1 ≤ 0xBF)
            else if b = 0xF4 then decide (0x80 ≤ c1) && decide (c1 ≤ 0x8F)
            else isCont c1) then
          match rest1 with
          | [] => [replChar]
          | c2 :: rest2 =>
            if isCont c2 then
              match rest2 with
              | [] => [replChar]
              | c3 :: rest3 =>
                if isCont c3 then
                  Char.ofNat ((b - 0xF0) * 0x40000 + (c1 - 0x80) * 0x1000 +
                    (c2 - 0x80) * 0x40 + (c3 - 0x80)) :: utf8Lossy rest3
                else replChar :: utf8Lossy (c3 :: rest3)
            else replChar :: utf8Lossy (c2 :: rest2)
        else replChar :: utf8Lossy (c1 :: rest1)
    else replChar :: utf8Lossy rest

/-- A schematic file snapshot (`SchematicFile` in `backend/src/types.rs`):
root-relative path and text content. -/
structure SchematicFile where
  path : Str
  content : List Char
deriving DecidableEq

/-- Embedding of `get_schematic_files` (`backend/src/services/git.rs:175-209`)
for a resolved commit tree: walk the full tree in preorder; for every entry
whose name ends with the target suffix and whose kind is blob, push a snapshot
whose path is the directory prefix joined with the name (bare name at the
root) and whose content is the lossy UTF-8 decoding of the blob bytes. -/
def get_schematic_files (tree : List TreeNode) : List SchematicFile :=
  (preVisitsList [] tree).foldl
    (fun files v =>
      match v.2 with
      | .blob name bytes =>
          if endsKicad name then files ++ [⟨mkPath v.1 name, utf8Lossy bytes⟩]
          else files
      | .sub _ _ => files) []

/-! ### Commits, diffs and the commit scanner -/

/-- One delta of a git tree-to-tree diff, as consumed by the scanner:
`delta.old_file().path().and_then(|p| p.to_str())` and likewise for the new
side (absent if the file has no path or it is not valid UTF-8). -/
structure Delta where
  old_path : Option Str
  new_path : Option Str

/-- A parent edge of a commit: the parent's object id together with the deltas
of `diff_tree_to_tree(parent.tree(), commit.tree(), None)`. -/
structure ParentLink where
  oid : Nat
  diff : List Delta

/-- A commit of the mirror: object id, parent edges in order (`parents()`),
commit time in seconds, message summary, and the commit's full tree. -/
structure CommitNode where
  oid : Nat
  parents : List ParentLink
  time : Int
  message : Option String
  tree : List TreeNode

/-- Embedding of `has_schematic_changes` (`backend/src/services/git.rs:139-172`):
with at least one parent (`commit.parents().next()` — only the first parent of
a merge), some delta of the diff has an old- or new-side path ending in the
target suffix; for a root commit, some blob entry of the full tree has a name
ending in the target suffix (the early-exit `Abort` of the walk is equivalent
to the existence test). -/
def has_schematic_changes (c : CommitNode) : Bool :=
  match c.parents.head? with
  | some pl =>
      pl.diff.any fun d =>
        ((d.old_path.map endsKicad).getD false) || ((d.new_path.map endsKicad).getD false)
  | none =>
      (preVisitsList [] c.tree).any fun v =>
        match v.2 with
        | .blob n _ => endsKicad n
        | .sub _ _ => false

/-- Loop body of the diff branch of `get_changed_schematic_files`: push the
new-side path if it has the target suffix, then the old-side path if it has
the target suffix and is not already collected. -/
def changedStep (acc : List Str) (d : Delta) : List Str :=
  let acc1 :=
    match d.new_path with
    | some p => if endsKicad p then acc ++ [p] else acc
    | none => acc
  match d.old_path with
  | some p => if endsKicad p && !(decide (p ∈ acc1)) then acc1 ++ [p] else acc1
  | none => acc1

/-- Embedding of `get_changed_schematic_files`
(`backend/src/services/git.rs:212-263`) for a resolved commit: with a parent,
fold `changedStep` over the first-parent diff; for a root commit, walk the
full tree collecting every matching blob path. -/
def get_changed_schematic_files (c : CommitNode) : List Str :=
  match c.parents.head? with
  | some pl => pl.diff.foldl changedStep []
  | none =>
      (preVisitsList [] c.tree).foldl
        (fun acc v =>
          match v.2 with
          | .blob name _ => if endsKicad name then acc ++ [mkPath v.1 name] else acc
          | .sub _ _ => acc) []

/-- The collecting fold of `get_schematic_files` is the corresponding
`filterMap` over the visit sequence. -/
theorem get_schematic_files_eq_filterMap (tree : List TreeNode) :
    get_schematic_files tree
      = (preVisitsList [] tree).filterMap fun v =>
          match v.2 with
          | .blob n b => if endsKicad n then some ⟨mkPath v.1 n, utf8Lossy b⟩ else none
          | .sub _ _ => none := by
  have h : ∀ (l : List (Str × TreeNode)) (acc : List SchematicFile),
      l.foldl (fun files v =>
        match v.2 with
        | .blob name bytes =>
            if endsKicad name then files ++ [⟨mkPath v.1 name, utf8Lossy bytes⟩]
            else files
        | .sub _ _ => files) acc
      = acc ++ l.filterMap fun v =>
          match v.2 with
          | .blob n b => if endsKicad n then some ⟨mkPath v.1 n, utf8Lossy b⟩ else none
          | .sub _ _ => none := by
    intro l
    induction l with
    | nil => intro acc; simp
    | cons x l ih =>
      intro acc
      rw [List.foldl_cons, ih]
      rcases x with ⟨d, t⟩
      cases t with
      | blob n b =>
        by_cases he : endsKicad n = true <;> simp [List.filterMap_cons, he]
      | sub n cs => simp [List.filterMap_cons]
  simpa using h (preVisitsList [] tree) []

/-- Name-based filtering at a visit agrees with path-based filtering, and the
visit sequence projects onto the spec-side blob records: a walk-collecting
`filterMap` keyed on the entry name equals the spec-side `filterMap` keyed on
the full path. -/
theorem filterMap_visits_spec {β : Type} (tree : List TreeNode) (h : Str → List Nat → β) :
    ((preVisitsList [] tree).filterMap fun v =>
        match v.2 with
        | .blob n b => if endsKicad n then some (h (mkPath v.1 n) b) else none
        | .sub _ _ => none)
      = (specBlobsList [] tree).filterMap
          fun pb => if endsKicad pb.1 then some (h pb.1 pb.2) else none := by
  have hdl : ∀ v ∈ preVisitsList [] tree, DirLike v.1 :=
    dirLike_preVisitsList [] tree (Or.inl rfl)
  have step1 : ((preVisitsList [] tree).filterMap fun v =>
        match v.2 with
        | .blob n b => if endsKicad n then some (h (mkPath v.1 n) b) else none
        | .sub _ _ => none)
      = (preVisitsList [] tree).filterMap fun v =>
          (visitBlob v).bind fun pb =>
            if endsKicad pb.1 then some (h pb.1 pb.2) else none := by
    apply List.filterMap_congr
    intro v hv
    rcases v with ⟨d, t⟩
    cases t with
    | blob n b =>
      have heq : endsKicad n = endsKicad (mkPath d n) := by
        unfold endsKicad
        exact decide_eq_decide.mpr (suffix_mkPath_iff kicadSfx d n (by decide) (hdl _ hv)).symm
      simp [visitBlob, heq]
    | sub n cs => simp [visitBlob]
  rw [step1, ← List.filterMap_filterMap]
  rw [show (preVisitsList [] tree).filterMap visitBlob = specBlobsList [] tree from
    visitBlob_preVisitsList [] tree]

/-- Claim C9: for a resolvable commit, `get_schematic_files` returns one
snapshot for exactly the blobs of the commit's full tree whose path ends with
the target suffix, in walk order: the path joins directory segments with `'/'`
(a root-level file keeps its unqualified name) and the content is the blob's
bytes decoded as UTF-8 with lossy substitution — a total function, so no
single undecodable file can fail the walk. -/
theorem get_schematic_files_exactly_matching_blobs (tree : List TreeNode) :
    get_schematic_files tree
      = (specBlobsList [] tree).filterMap
          fun pb => if endsKicad pb.1 then some ⟨pb.1, utf8Lossy pb.2⟩ else none := by
  rw [get_schematic_files_eq_filterMap]
  exact filterMap_visits_spec tree fun p b => SchematicFile.mk p (utf8Lossy b)

/-- Under the well-formedness of tree-to-tree diffs without rename detection
(every delta carries the same path on both sides), the diff fold of
`get_changed_schematic_files` collects exactly the new-side paths with the
target suffix, in delta order. -/
theorem changed_foldl_eq : ∀ ds : List Delta, (∀ d ∈ ds, d.old_path = d.new_path) →
    ∀ acc : List Str,
      ds.foldl changedStep acc = acc ++ (ds.filterMap Delta.new_path).filter endsKicad := by
  intro ds
  induction ds with
  | nil => intro _ acc; simp
  | cons d ds ih =>
    intro hw acc
    rw [List.foldl_cons, ih (fun x hx => hw x (List.mem_cons_of_mem d hx))]
    have hd := hw d (List.mem_cons_self d ds)
    rcases hn : d.new_path with _ | p
    · rw [hn] at hd
      simp [changedStep, hn, hd, List.filterMap_cons]
    · rw [hn] at hd
      by_cases he : endsKicad p = true
      · have hstep : changedStep acc d = acc ++ [p] := by
          simp [changedStep, hn, hd, he]
        rw [hstep]
        simp [List.filterMap_cons, hn, List.filter_cons, he]
      · have hstep : changedStep acc d = acc := by
          simp [changedStep, hn, hd, he]
        rw [hstep]
        simp [List.filterMap_cons, hn, List.filter_cons, he]

/-- Claim C4: for a commit with a parent whose diff is well-formed (equal
old/new path per delta — no rename detection — and no repeated path),
`get_changed_schematic_files` returns, without duplicates, exactly the paths
with the target suffix appearing on either side of the first-parent tree
diff; for a root commit it returns every target-suffix blob path of its full
tree. -/
theorem get_changed_schematic_files_correct :
    (∀ (c : CommitNode) (pl : ParentLink), c.parents.head? = some pl →
      (∀ d ∈ pl.diff, d.old_path = d.new_path) →
      (pl.diff.filterMap Delta.new_path).Nodup →
      (get_changed_schematic_files c).Nodup ∧
        ∀ p : Str, p ∈ get_changed_schematic_files c ↔
          ((∃ d ∈ pl.diff, d.old_path = some p ∨ d.new_path = some p) ∧
            endsKicad p = true)) ∧
    (∀ c : CommitNode, c.parents.head? = none →
      get_changed_schematic_files c
        = (specBlobsList [] c.tree).filterMap
            fun pb => if endsKicad pb.1 then some pb.1 else none) := by
  constructor
  · intro c pl hpl hwf hnd
    have hc : get_changed_schematic_files c
        = (pl.diff.filterMap Delta.new_path).filter endsKicad := by
      unfold get_changed_schematic_files
      rw [hpl]
      simpa using changed_foldl_eq pl.diff hwf []
    constructor
    · rw [hc]
      exact hnd.filter _
    · intro p
      rw [hc]
      simp only [List.mem_filter, List.mem_filterMap]
      constructor
      · rintro ⟨⟨d, hd, hdp⟩, he⟩
        exact ⟨⟨d, hd, Or.inr hdp⟩, he⟩
      · rintro ⟨⟨d, hd, hdp | hdp⟩, he⟩
        · refine ⟨⟨d, hd, ?_⟩, he⟩
          rw [← hwf d hd]
          exact hdp
        · exact ⟨⟨d, hd, hdp⟩, he⟩
  · intro c hpl
    unfold get_changed_schematic_files
    rw [hpl]
    have h : ∀ (l : List (Str × TreeNode)) (acc : List Str),
        l.foldl (fun acc v =>
          match v.2 with
          | .blob name _ => if endsKicad name then acc ++ [mkPath v.1 name] else acc
          | .sub _ _ => acc) acc
        = acc ++ l.filterMap fun v =>
            match v.2 with
            | .blob n b => if endsKicad n then some (mkPath v.1 n) else none
            | .sub _ _ => none := by
      intro l
      induction l with
      | nil => intro acc; simp
      | cons x l ih =>
        intro acc
        rw [List.foldl_cons, ih]
        rcases x with ⟨d, t⟩
        cases t with
        | blob n b =>
          by_cases he : endsKicad n = true <;> simp [List.filterMap_cons, he]
        | sub n cs => simp [List.filterMap_cons]
    rw [h (preVisitsList [] c.tree) []]
    simpa using filterMap_visits_spec c.tree fun p _ => p

/-- The per-delta predicate of `has_schematic_changes`, spelled as existence of
a matching path on either side. -/
theorem delta_pred_iff (d : Delta) :
    (((d.old_path.map endsKicad).getD false)
        || ((d.new_path.map endsKicad).getD false)) = true
      ↔ ((∃ p, d.old_path = some p ∧ endsKicad p = true) ∨
          (∃ p, d.new_path = some p ∧ endsKicad p = true)) := by
  rcases d with ⟨o, n⟩
  cases o <;> cases n <;> simp

/-- Claim C5: the touches-target classification: with at least one parent,
`has_schematic_changes` is true iff some changed path on the old or new side
of the diff against the first parent (merge commits use only the first
parent) ends with the target suffix; for a root commit, iff some blob of its
full tree has a path ending with the target suffix. -/
theorem has_schematic_changes_correct :
    (∀ (c : CommitNode) (pl : ParentLink), c.parents.head? = some pl →
      (has_schematic_changes c = true ↔
        ∃ d ∈ pl.diff,
          (∃ p, d.old_path = some p ∧ endsKicad p = true) ∨
          (∃ p, d.new_path = some p ∧ endsKicad p = true))) ∧
    (∀ c : CommitNode, c.parents.head? = none →
      (has_schematic_changes c = true ↔
        ∃ pb ∈ specBlobsList [] c.tree, endsKicad pb.1 = true)) := by
  constructor
  · intro c pl hpl
    unfold has_schematic_changes
    rw [hpl]
    simp only [List.any_eq_true]
    constructor
    · rintro ⟨d, hd, hb⟩
      exact ⟨d, hd, (delta_pred_iff d).mp hb⟩
    · rintro ⟨d, hd, hb⟩
      exact ⟨d, hd, (delta_pred_iff d).mpr hb⟩
  · intro c hpl
    unfold has_schematic_changes
    rw [hpl]
    rw [List.any_eq_true]
    have hdl : ∀ v ∈ preVisitsList [] c.tree, DirLike v.1 :=
      dirLike_preVisitsList [] c.tree (Or.inl rfl)
    have hbr : (preVisitsList [] c.tree).filterMap visitBlob = specBlobsList [] c.tree :=
      visitBlob_preVisitsList [] c.tree
    constructor
    · rintro ⟨⟨d, t⟩, hv, hp⟩
      cases t with
      | blob n b =>
        have he : endsKicad n = true := by simpa using hp
        refine ⟨(mkPath d n, b), ?_, ?_⟩
        · rw [← hbr]
          exact List.mem_filterMap.mpr ⟨(d, .blob n b), hv, rfl⟩
        · unfold endsKicad at he ⊢
          rw [decide_eq_decide.mpr (suffix_mkPath_iff kicadSfx d n (by decide) (hdl _ hv))]
          exact he
      | sub n cs => simp at hp
    · rintro ⟨pb, hpb, he⟩
      rw [← hbr] at hpb
      obtain ⟨⟨d, t⟩, hv, hvb⟩ := List.mem_filterMap.mp hpb
      cases t with
      | sub n cs => simp [visitBlob] at hvb
      | blob n b =>
        refine ⟨(d, .blob n b), hv, ?_⟩
        simp only [visitBlob] at hvb
        have hpb1 : pb.1 = mkPath d n := by
          have := Option.some_inj.mp hvb
          rw [← this]
        rw [hpb1] at he
        show endsKicad n = true
        unfold endsKicad at he ⊢
        rw [← decide_eq_decide.mpr (suffix_mkPath_iff kicadSfx d n (by decide) (hdl _ hv))]
        exact he

/-- Example diff: one schematic file and one unrelated file, both sides equal. -/
def exDiff : List Delta :=
  [⟨some (("a.kicad_sch").data), some (("a.kicad_sch").data)⟩,
   ⟨some (("b.txt").data), some (("b.txt").data)⟩]

/-- Example parent link carrying `exDiff`. -/
def exParent : ParentLink := ⟨1, exDiff⟩

/-- Example non-root commit with first parent `exParent`. -/
def exCommitP : CommitNode := ⟨2, [exParent], 5, some "m", []⟩

/-- Example tree: a schematic blob in a subdirectory and an unrelated root
blob. -/
def exTree : List TreeNode :=
  [.sub (("a").data) [.blob (("x.kicad_sch").data) [0x41]],
   .blob (("b.txt").data) [0x42]]

/-- Example root commit over `exTree`. -/
def exCommitRoot : CommitNode := ⟨1, [], 3, none, exTree⟩

/-- Witness for claim C4 at concrete inputs: the diff case at `exCommitP` (for
the schematic path) and the root case at `exCommitRoot`. -/
theorem get_changed_schematic_files_correct_witness :
    ((get_changed_schematic_files exCommitP).Nodup ∧
      ((("a.kicad_sch").data : Str) ∈ get_changed_schematic_files exCommitP ↔
        ((∃ d ∈ exParent.diff, d.old_path = some (("a.kicad_sch").data) ∨
            d.new_path = some (("a.kicad_sch").data)) ∧
          endsKicad (("a.kicad_sch").data) = true))) ∧
    get_changed_schematic_files exCommitRoot
      = (specBlobsList [] exCommitRoot.tree).filterMap
          fun pb => if endsKicad pb.1 then some pb.1 else none :=
  have h := get_changed_schematic_files_correct.1 exCommitP exParent rfl
    (by decide) (by decide)
  ⟨⟨h.1, h.2 (("a.kicad_sch").data)⟩,
    get_changed_schematic_files_correct.2 exCommitRoot rfl⟩

/-- Witness for claim C5 at concrete inputs: the first-parent case at
`exCommitP` and the root case at `exCommitRoot`. -/
theorem has_schematic_changes_correct_witness :
    (has_schematic_changes exCommitP = true ↔
      ∃ d ∈ exParent.diff,
        (∃ p, d.old_path = some p ∧ endsKicad p = true) ∨
        (∃ p, d.new_path = some p ∧ endsKicad p = true)) ∧
    (has_schematic_changes exCommitRoot = true ↔
      ∃ pb ∈ specBlobsList [] exCommitRoot.tree, endsKicad pb.1 = true) :=
  ⟨has_schematic_changes_correct.1 exCommitP exParent rfl,
    has_schematic_changes_correct.2 exCommitRoot rfl⟩

/-! ### Distillation pipeline (`backend/src/services/distill.rs`) -/

/-- Filesystem and process side effects of the distillation pipeline, in the
order they are performed on the workspace. (Mirror acquisition inside
`get_schematic_files` touches only the mirror directory, not the workspace,
and is abstracted by the `filesResult` oracle.) -/
inductive FsEvent where
  | removeDirAll (path : String)
  | createDirAll (path : String)
  | writeFile (path : String) (content : List Char)
  | runScript (dir : String)
deriving DecidableEq

/-- Pipeline failures of `distill_repo_schematics` (anyhow messages modelled as
typed error kinds): fetching files failed, the matched file set was empty, or
the external script failed or produced unparsable output. -/
inductive DistillError where
  | fetchFailed (message : String)
  | noInputFiles (repo commit : String)
  | scriptFailed (stderr : String)
deriving DecidableEq

/-- Slug sanitization at the `String` level (`repo_slug.replace('/', "-")`). -/
def sanitizeSlugS (repo : String) : String := String.mk (sanitizeSlug repo.data)

/-- The deterministic workspace path of `write_schematic_files_to_temp`:
`temp_dir()/kicad-distill/<slug with '/' replaced>/<commit>`. -/
def workspaceDir (tmpRoot repo commit : String) : String :=
  tmpRoot ++ "/kicad-distill/" ++ sanitizeSlugS repo ++ "/" ++ commit

/-- Rust `Path::parent` for the paths built here: drop the last `'/'`-separated
component. -/
def parentDir (p : String) : String :=
  String.mk (((p.data.reverse.dropWhile fun c => c ≠ '/').drop 1).reverse)

/-- Embedding of `write_schematic_files_to_temp`
(`backend/src/services/distill.rs:133-172`): wipe the workspace if it exists,
recreate it, then write each file under it (creating parent directories),
returning the workspace path and the emitted side effects in order. -/
def write_schematic_files_to_temp (tmpRoot : String) (files : List SchematicFile)
    (repo commit : String) (dirExisted : Bool) : String × List FsEvent :=
  let dir := workspaceDir tmpRoot repo commit
  let evs0 : List FsEvent := if dirExisted then [FsEvent.removeDirAll dir] else []
  let evs1 := evs0 ++ [FsEvent.createDirAll dir]
  let evs2 := files.foldl
    (fun es f =>
      let fp := dir ++ "/" ++ String.mk f.path
      es ++ [FsEvent.createDirAll (parentDir fp), FsEvent.writeFile fp f.content]) evs1
  (dir, evs2)

/-- Embedding of `distill_repo_schematics`
(`backend/src/services/distill.rs:178-209`): the fetched file list and the
combined run-and-parse outcome of `run_distill_script` are oracles (the fetch
happens before any workspace work; the script invocation emits a `runScript`
event whatever its outcome). An empty matched file set fails with
`noInputFiles` before the workspace is touched. -/
def distill_repo_schematics (tmpRoot : String) (repo commit : String)
    (filesResult : Except String (List SchematicFile)) (dirExisted : Bool)
    (scriptResult : Except String JsonDoc) : Except DistillError JsonDoc × List FsEvent :=
  match filesResult with
  | Except.error e => (Except.error (DistillError.fetchFailed e), [])
  | Except.ok files =>
    if files.isEmpty then (Except.error (DistillError.noInputFiles repo commit), [])
    else
      let wr := write_schematic_files_to_temp tmpRoot files repo commit dirExisted
      match scriptResult with
      | Except.error stderr =>
          (Except.error (DistillError.scriptFailed stderr), wr.2 ++ [FsEvent.runScript wr.1])
      | Except.ok json => (Except.ok json, wr.2 ++ [FsEvent.runScript wr.1])

/-- Claim C7: when the matched file set is empty, distillation fails with the
no-input-files error and the side-effect trace is empty: no workspace
directory is removed, created or written and no subprocess runs. -/
theorem no_input_files_fails_before_side_effects
    (tmpRoot repo commit : String) (dirExisted : Bool)
    (scriptResult : Except String JsonDoc) :
    distill_repo_schematics tmpRoot repo commit (Except.ok []) dirExisted scriptResult
      = (Except.error (DistillError.noInputFiles repo commit), []) := rfl

/-! ### Distill controller (`backend/src/controllers/distill.rs`) -/

/-- Response body of the distill endpoint. -/
structure DistillResponse where
  repo : String
  commit : String
  cached : Bool
  distilled : JsonDoc
deriving DecidableEq

/-- Error body of the distill endpoint (internal server error with message). -/
inductive ApiError where
  | internal (message : String)
deriving DecidableEq

/-- The repository URL used as cache key by the controller:
`format!("https://github.com/{}.git", req.repo)`. -/
def repoUrlOf (repo : String) : String := "https://github.com/" ++ repo ++ ".git"

/-- Embedding of `distill_schematics`
(`backend/src/controllers/distill.rs:22-78`). Storage faults are injected by
`readFault` / `writeFault`; the distillation outcome is the oracle `dres`.
A cache read returning a document short-circuits with `cached := true`; a
miss or a read fault falls through to distillation; a distillation error is
the only error surfaced; a write fault leaves the store unchanged and is
otherwise ignored. -/
def distill_schematics (db : Db) (repo commit : String) (readFault : Bool)
    (dres : Except String JsonDoc) (writeFault : Bool) (now : Int) :
    Except ApiError DistillResponse × Db :=
  let repo_url := repoUrlOf repo
  match (if readFault then none else some (retrieve_distilled_json db repo_url commit)) with
  | some (some cached_json) => (Except.ok ⟨repo, commit, true, cached_json⟩, db)
  | _ =>
    match dres with
    | Except.error e =>
        (Except.error (ApiError.internal ("Distillation failed: " ++ e)), db)
    | Except.ok distilled =>
        let db2 :=
          if writeFault then db else store_distilled_json db repo_url commit distilled now
        (Except.ok ⟨repo, commit, false, distilled⟩, db2)

/-- Claim C6: cache storage faults are soft on the distill request path: a
cache read fault is treated as a miss — distillation still runs and alone
decides the response — and on a miss a successful distillation is returned to
the caller whether or not the cache write fails. -/
theorem cache_faults_are_soft :
    (∀ (db : Db) (repo commit : String) (dres : Except String JsonDoc)
        (wf : Bool) (now : Int),
      (distill_schematics db repo commit true dres wf now).1
        = match dres with
          | Except.ok j => Except.ok ⟨repo, commit, false, j⟩
          | Except.error e =>
              Except.error (ApiError.internal ("Distillation failed: " ++ e))) ∧
    (∀ (db : Db) (repo commit : String) (j : JsonDoc) (wf : Bool) (now : Int),
      retrieve_distilled_json db (repoUrlOf repo) commit = none →
      (distill_schematics db repo commit false (Except.ok j) wf now).1
        = Except.ok ⟨repo, commit, false, j⟩) := by
  constructor
  · intro db repo commit dres wf now
    cases dres <;> rfl
  · intro db repo commit j wf now h
    cases wf <;> simp [distill_schematics, h]

/-- Example repository slug. -/
def exRepo : String := "acme/board"

/-- Example distilled document. -/
def exDoc : JsonDoc := ⟨"doc1"⟩

/-- Witness for claim C6 at concrete inputs: with an empty cache, a read fault
plus write fault still returns the fresh result, and so does a plain miss
with a write fault. -/
theorem cache_faults_are_soft_witness :
    (distill_schematics emptyDb exRepo exHash true (Except.ok exDoc) true 0).1
        = Except.ok ⟨exRepo, exHash, false, exDoc⟩ ∧
    (distill_schematics emptyDb exRepo exHash false (Except.ok exDoc) true 0).1
        = Except.ok ⟨exRepo, exHash, false, exDoc⟩ :=
  ⟨cache_faults_are_soft.1 emptyDb exRepo exHash (Except.ok exDoc) true 0,
    cache_faults_are_soft.2 emptyDb exRepo exHash exDoc true 0 rfl⟩

/-! ### Commit walk (`get_all_commits`, `backend/src/services/git.rs:100-127`)

The mirror state after `get_repo` is a commit graph with a head. The revwalk
is configured with `Sort::TOPOLOGICAL | Sort::TIME` and `push_head()`; per the
libgit2 semantics this emits, starting from the head, each commit before any
of its parents (git-log direction — `Sort::REVERSE` is *not* set), choosing
among the emittable commits by commit time, newest first, with a deterministic
tie-break. The model below computes the reachable commits and then runs that
selection loop. -/

/-- A mirror state: the commits of the repository and the head object id. -/
structure RepoGraph where
  commits : List CommitNode
  headOid : Nat

/-- Parent object ids of a commit, in order. -/
def parentOids (c : CommitNode) : List Nat := c.parents.map fun pl => pl.oid

/-- Look a commit up by object id. -/
def lookupCommit (g : RepoGraph) (o : Nat) : Option CommitNode :=
  g.commits.find? fun c => c.oid == o

/-- One closure step of reachability: add all parents of already-reached
commits. -/
def reachStep (g : RepoGraph) (seen : List Nat) : List Nat :=
  seen ++ ((((seen.filterMap (lookupCommit g)).map parentOids).flatten.filter
    fun o => !(decide (o ∈ seen))).dedup)

/-- Plain function iteration. -/
def iterate {α : Type} (f : α → α) : Nat → α → α
  | 0, a => a
  | n + 1, a => iterate f n (f a)

/-- Object ids reachable from the head (closure reached within
`commits.length` steps for well-formed graphs). -/
def reachOids (g : RepoGraph) : List Nat :=
  iterate (reachStep g) g.commits.length [g.headOid]

/-- The commits the revwalk will emit: those reachable from the pushed head. -/
def walkPool (g : RepoGraph) : List CommitNode :=
  g.commits.filter fun c => decide (c.oid ∈ reachOids g)

/-- The commits that may be emitted next: those of which no remaining commit
is a child (topological constraint: a commit is shown before its parents). -/
def readyCommits (rem : List CommitNode) : List CommitNode :=
  rem.filter fun c => !(rem.any fun d => decide (c.oid ∈ parentOids d))

/-- Deterministic choice of the newest commit by time (first-listed wins
ties). -/
def pickMaxTime : List CommitNode → Option CommitNode
  | [] => none
  | c :: rest => some (rest.foldl (fun best d => if best.time < d.time then d else best) c)

/-- Next commit emitted by the walk. -/
def pickNext (rem : List CommitNode) : Option CommitNode := pickMaxTime (readyCommits rem)

/-- The emission loop: repeatedly emit the newest ready commit and remove it
from the pool. -/
def sortedWalk : Nat → List CommitNode → List CommitNode
  | 0, _ => []
  | fuel + 1, rem =>
    match pickNext rem with
    | none => []
    | some c => c :: sortedWalk fuel (rem.eraseP fun d => d.oid == c.oid)

/-- The revwalk emission order for a mirror state. -/
def walkOrder (g : RepoGraph) : List CommitNode :=
  sortedWalk (walkPool g).length (walkPool g)

/-- `CommitInfo` (`backend/src/types.rs`): hash, optional timestamp, optional
message summary, touches-target flag. -/
structure CommitInfo where
  commit_hash : String
  commit_date : Option Int
  message : Option String
  has_schematic_changes : Bool
deriving DecidableEq

/-- `Utc.timestamp_opt(secs, 0).single()`: absent when the commit clock lies
outside chrono's representable range. -/
def timestampOpt (secs : Int) : Option Int :=
  if -8334601228800 ≤ secs ∧ secs ≤ 8210266876799 then some secs else none

/-- The record built for each walked commit inside `get_all_commits`. -/
def commitInfoOf (c : CommitNode) : CommitInfo :=
  ⟨toString c.oid, timestampOpt c.time, c.message, has_schematic_changes c⟩

/-- Embedding of `get_all_commits` (`backend/src/services/git.rs:100-127`). -/
def get_all_commits (g : RepoGraph) : List CommitInfo :=
  (walkOrder g).map commitInfoOf

/-- Embedding of `get_schematic_commits` (`backend/src/services/git.rs:130-136`). -/
def get_schematic_commits (g : RepoGraph) : List CommitInfo :=
  (get_all_commits g).filter fun c => c.has_schematic_changes

/-- The max-by-time fold picks an element of the candidate list. -/
theorem foldl_pick_mem : ∀ (l : List CommitNode) (b : CommitNode),
    l.foldl (fun best d => if best.time < d.time then d else best) b ∈ b :: l := by
  intro l
  induction l with
  | nil => intro b; simp
  | cons a l ih =>
    intro b
    rw [List.foldl_cons]
    by_cases hc : b.time < a.time
    · rw [if_pos hc]
      exact List.mem_cons_of_mem b (ih a)
    · rw [if_neg hc]
      rcases List.mem_cons.mp (ih b) with h | h
      · rw [h]
        exact List.mem_cons_self b (a :: l)
      · exact List.mem_cons_of_mem b (List.mem_cons_of_mem a h)

/-- `pickMaxTime` picks an element of its input. -/
theorem pickMaxTime_mem {l : List CommitNode} {c : CommitNode}
    (h : pickMaxTime l = some c) : c ∈ l := by
  cases l with
  | nil => simp [pickMaxTime] at h
  | cons a rest =>
    simp only [pickMaxTime, Option.some_inj] at h
    rw [← h]
    exact foldl_pick_mem rest a

/-- The emitted commit is in the pool. -/
theorem pickNext_mem {rem : List CommitNode} {c : CommitNode}
    (h : pickNext rem = some c) : c ∈ rem :=
  List.mem_of_mem_filter (pickMaxTime_mem h)

/-- The emitted commit is a parent of no commit still in the pool. -/
theorem pickNext_ready {rem : List CommitNode} {c : CommitNode}
    (h : pickNext rem = some c) : ∀ d ∈ rem, c.oid ∉ parentOids d := by
  have hm := pickMaxTime_mem h
  simp only [readyCommits, List.mem_filter, Bool.not_eq_true', List.any_eq_false,
    decide_eq_true_eq] at hm
  exact hm.2

/-- Every commit emitted by the walk comes from the pool. -/
theorem sortedWalk_subset : ∀ (fuel : Nat) (rem : List CommitNode),
    ∀ x ∈ sortedWalk fuel rem, x ∈ rem := by
  intro fuel
  induction fuel with
  | zero => intro rem x hx; simp [sortedWalk] at hx
  | succ fuel ih =>
    intro rem x hx
    simp only [sortedWalk] at hx
    cases hp : pickNext rem with
    | none => rw [hp] at hx; simp at hx
    | some c =>
      rw [hp] at hx
      rcases List.mem_cons.mp hx with h | h
      · rw [h]
        exact pickNext_mem hp
      · exact List.eraseP_subset _ (ih _ x h)

/-- Topological direction of the walk: whenever `a` is emitted before `b`,
`a` is not a parent of `b` — equivalently, every commit is emitted before all
of its parents. -/
theorem sortedWalk_pairwise : ∀ (fuel : Nat) (rem : List CommitNode),
    (sortedWalk fuel rem).Pairwise fun a b => a.oid ∉ parentOids b := by
  intro fuel
  induction fuel with
  | zero => intro rem; simp [sortedWalk]
  | succ fuel ih =>
    intro rem
    simp only [sortedWalk]
    cases hp : pickNext rem with
    | none => simp
    | some c =>
      refine List.Pairwise.cons ?_ (ih _)
      intro b hb
      have hbrem : b ∈ rem := List.eraseP_subset _ (sortedWalk_subset fuel _ b hb)
      exact pickNext_ready hp b hbrem

/-- A commit below the max-by-time fold's pick is no newer than the pick. -/
theorem foldl_pick_time : ∀ (l : List CommitNode) (b : CommitNode),
    ∀ d ∈ b :: l,
      d.time ≤ (l.foldl (fun best d => if best.time < d.time then d else best) b).time := by
  intro l
  induction l with
  | nil =>
    intro b d hd
    rw [List.mem_singleton.mp hd]
    exact le_refl _
  | cons a l ih =>
    intro b d hd
    rw [List.foldl_cons]
    have hstep : b.time ≤ (if b.time < a.time then a else b).time ∧
        a.time ≤ (if b.time < a.time then a else b).time := by
      by_cases hc : b.time < a.time
      · rw [if_pos hc]
        exact ⟨le_of_lt hc, le_refl _⟩
      · rw [if_neg hc]
        exact ⟨le_refl _, le_of_not_lt hc⟩
    have hhead := ih (if b.time < a.time then a else b) _ (List.mem_cons_self _ _)
    rcases List.mem_cons.mp hd with h | h
    · rw [h]
      exact le_trans hstep.1 hhead
    · rcases List.mem_cons.mp h with h | h
      · rw [h]
        exact le_trans hstep.2 hhead
      · exact ih _ d (List.mem_cons_of_mem _ h)

/-- `pickMaxTime` picks a maximal commit time. -/
theorem pickMaxTime_time {l : List CommitNode} {c : CommitNode}
    (h : pickMaxTime l = some c) : ∀ d ∈ l, d.time ≤ c.time := by
  cases l with
  | nil => intro d hd; simp at hd
  | cons a rest =>
    intro d hd
    simp only [pickMaxTime, Option.some_inj] at h
    rw [← h]
    exact foldl_pick_time rest a d hd

/-- The emitted commit is the newest among the emittable commits. -/
theorem pickNext_newest {rem : List CommitNode} {c : CommitNode}
    (h : pickNext rem = some c) : ∀ d ∈ readyCommits rem, d.time ≤ c.time :=
  pickMaxTime_time h

/-- Claim C1 (amended): `get_all_commits` lists the walked commits in
topological order *newest first* (typical log order): every commit is emitted
before any of its parents, and at each step the emitted commit is the newest
(by commit time, with a deterministic tie-break) among the commits whose
children have all been emitted; being a pure function of the mirror state,
repeated calls against the same state return identical sequences. -/
theorem get_all_commits_topological_newest_first :
    (∀ g : RepoGraph, get_all_commits g = (walkOrder g).map commitInfoOf) ∧
    (∀ g : RepoGraph, (walkOrder g).Pairwise fun a b => a.oid ∉ parentOids b) ∧
    (∀ (rem : List CommitNode) (c : CommitNode), pickNext rem = some c →
      ∀ d ∈ readyCommits rem, d.time ≤ c.time) :=
  ⟨fun _ => rfl, fun g => sortedWalk_pairwise (walkPool g).length (walkPool g),
    fun _ _ h => pickNext_newest h⟩

/-- Example root commit, time 1. -/
def exNodeOld : CommitNode := ⟨1, [], 1, some "first", []⟩

/-- Example child commit of `exNodeOld`, time 2, the head. -/
def exNodeNew : CommitNode := ⟨2, [⟨1, []⟩], 2, some "second", []⟩

/-- Example mirror: a two-commit chain with the newer commit at the head. -/
def exGraph : RepoGraph := ⟨[exNodeOld, exNodeNew], 2⟩

/-- Claim C1 counterexample: on the two-commit chain `exGraph` (commit 1 at
time 1 is the parent of head commit 2 at time 2), `get_all_commits` emits the
*newest* commit first, not the oldest: the sequence differs from the
oldest-first sequence the claim demands. -/
theorem get_all_commits_not_oldest_first :
    get_all_commits exGraph
      = [⟨"2", some 2, some "second", false⟩, ⟨"1", some 1, some "first", false⟩] ∧
    get_all_commits exGraph
      ≠ [⟨"1", some 1, some "first", false⟩, ⟨"2", some 2, some "second", false⟩] := by
  decide

/-- Witness for the amended claim C1 at concrete inputs: on `exGraph` the walk
emits `exNodeNew`, the only ready commit, which no ready commit out-times. -/
theorem get_all_commits_topological_newest_first_witness :
    get_all_commits exGraph = (walkOrder exGraph).map commitInfoOf ∧
    exNodeNew.time ≤ exNodeNew.time :=
  ⟨get_all_commits_topological_newest_first.1 exGraph,
    get_all_commits_topological_newest_first.2.2 (walkPool exGraph) exNodeNew rfl exNodeNew
      (List.mem_singleton.mpr rfl)⟩

end Grokicad
